import Mathlib

/-!
Verification development for the part-authentication program (`src/main.py`).

The program quantizes a numeric sensor signature into a sequence of decimal
digits, treats that sequence as the data portion of a Reed-Solomon codeword,
and authenticates candidate signatures by attempting to decode the candidate's
quantized data together with the master's stored check digits.

Number representation: the Python source computes with IEEE doubles; the
embedding models those values as exact rationals (`ℚ`), with the
`int(math.log10 v)` step given its exact-real semantics.  The Reed-Solomon
codec itself lives in the external `reedsolo` library, which is not part of
this repository; it is modelled from the specification (§4.2-§4.4), generically
over the field context.
-/

namespace RSPart

/-- Python `int(q)`: truncation toward zero. -/
def pyInt (q : ℚ) : ℤ := if q < 0 then -⌊-q⌋ else ⌊q⌋

/-- Fuel-driven base-10 integer logarithm (structurally recursive so that it
evaluates inside the kernel). -/
def log10fuel : ℕ → ℕ → ℕ
  | 0, _ => 0
  | fuel + 1, n => if n < 10 then 0 else log10fuel fuel (n / 10) + 1

/-- Here `natLog10 n` is the number of base-10 digits of `n` minus one (and `0`
for `n = 0`). -/
def natLog10 (n : ℕ) : ℕ := log10fuel n n

/-- Exact-real semantics of `int(math.log10(v))` for `v > 0`
(`main.py` line 65 / 145 / 162): the integer part, truncated toward zero,
of the base-10 logarithm. -/
def ilog10 (v : ℚ) : ℤ :=
  if 1 ≤ v then (natLog10 ⌊v⌋.toNat : ℤ) else -(natLog10 ⌊1 / v⌋.toNat : ℤ)

/-- The inner digit-extraction loop of `Instance.__init__` (`main.py`
lines 56-68): for one raw value, emit one symbol per iteration, five
iterations per value.  Each iteration re-checks the sign, nudges sub-unity
magnitudes by a single factor of ten, extracts the leading digit and keeps
the remainder. -/
def quantIter : ℕ → ℚ → List ℤ
  | 0, _ => []
  | i + 1, v =>
    if v = 0 then 0 :: quantIter i v
    else
      let v1 := if v < 0 then v * (-1) else v
      let v2 := if 0 < v1 ∧ v1 < 1 then v1 * 10 else v1
      let d := ilog10 v2
      let fd := pyInt (v2 / (10 : ℚ) ^ d)
      fd :: quantIter i (v2 - fd * (10 : ℚ) ^ d)

/-- The five symbols extracted from a single raw value (`range(0, 5)`). -/
def quantizeValue (v : ℚ) : List ℤ := quantIter 5 v

/-- Quantization of a whole raw matrix, row by row, value by value
(`Instance.__init__`, `main.py` lines 54-68). -/
def quantize (file : List (List ℚ)) : List ℤ :=
  file.flatMap fun row => row.flatMap quantizeValue

/-- The digit-extraction loop duplicated verbatim inside `num_differences`
(`main.py` lines 136-148 and 153-165), transcribed separately so that the
two copies can be compared. -/
def ndQuantIter : ℕ → ℚ → List ℤ
  | 0, _ => []
  | i + 1, v =>
    if v = 0 then 0 :: ndQuantIter i v
    else
      let v1 := if v < 0 then v * (-1) else v
      let v2 := if 0 < v1 ∧ v1 < 1 then v1 * 10 else v1
      let d := ilog10 v2
      let fd := pyInt (v2 / (10 : ℚ) ^ d)
      fd :: ndQuantIter i (v2 - fd * (10 : ℚ) ^ d)

/-- Quantization as performed inside `num_differences` on each of its two
input files. -/
def ndQuantize (file : List (List ℚ)) : List ℤ :=
  file.flatMap fun row => row.flatMap fun v => ndQuantIter 5 v

/-- Function `num_differences` (`main.py` lines 122-170): quantize both files, then
loop `for i in range(len(master_data))` comparing `master_data[i]` with
`candidate_data[i]`.  When the candidate's quantized sequence is shorter than
the master's the subscript `candidate_data[i]` raises `IndexError`, modelled
as `none`; otherwise the loop silently compares only the master-length
prefix. -/
def numDifferences (mFile cFile : List (List ℚ)) : Option ℕ :=
  let md := ndQuantize mFile
  let cd := ndQuantize cFile
  if cd.length < md.length then none
  else some (((List.range md.length).filter fun i =>
    decide (md.getD i 0 ≠ cd.getD i 0)).length)

/-- Count of positions at which two sequences differ (Hamming distance on the
common prefix; used to state properties of `num_differences`). -/
def diffCount {γ : Type*} [DecidableEq γ] (a b : List γ) : ℕ :=
  (a.zip b).countP fun p => decide (p.1 ≠ p.2)

/-- Horner evaluation of a coefficient list in message order (index 0 is the
highest-degree coefficient), as used by the codec to evaluate a received word
at the generator roots. -/
def evalPoly {F : Type*} [Field F] (l : List F) (x : F) : F :=
  l.foldl (fun acc a => acc * x + a) 0

/-- Multiplication of a message-order coefficient list by the linear factor
`X - r`. -/
def polyMulXsub {F : Type*} [Field F] (g : List F) (r : F) : List F :=
  List.zipWith (· - ·) (g ++ [0]) (0 :: g.map (r * ·))

/-- Modelled from the spec: the generator polynomial of the Codec Engine
(§4.3), "the product of `(x - field.element(i))` for `i` in `0..checkLength`",
of degree `checkLength`; the source delegates this to the external `reedsolo`
library, which is not part of this repository. -/
def rsGenerator {F : Type*} [Field F] (α : F) : ℕ → List F
  | 0 => [1]
  | c + 1 => polyMulXsub (rsGenerator α c) (α ^ c)

/-- One cancellation step per leading position of the systematic polynomial
division: `gt` is the tail of the monic generator, and each step removes the
current leading coefficient by subtracting the corresponding multiple of the
generator. -/
def remSteps {F : Type*} [Field F] (gt : List F) : ℕ → List F → List F
  | 0, a => a
  | _ + 1, [] => []
  | n + 1, x :: rest =>
      remSteps gt n
        (List.zipWith (· - ·) rest (gt.map (x * ·) ++ List.replicate (rest.length - gt.length) 0))

/-- Modelled from the spec: the systematic encoder of the Codec Engine (§4.3,
realized in the source by `reedsolo.RSCodec.encode`, not part of this
repository): divide the data word (zero-extended by `checkLength`) by the
generator and append the check symbols after the data unchanged.  In the
spec's field `GF(2^m)` negation is the identity; over a general field the
check symbols are the negated remainder, so that the codeword is an exact
multiple of the generator. -/
def rsEncode {F : Type*} [Field F] (α : F) (data : List F) (c : ℕ) : List F :=
  data ++ (remSteps (rsGenerator α c).tail data.length (data ++ List.replicate c 0)).map (fun y => -y)

/-- Modelled from the spec: the `checkLength` syndromes of a received word,
"evaluating `received` as a polynomial at each root used in generator
construction" (§4.3 step 1). -/
def rsSyndromes {F : Type*} [Field F] (α : F) (received : List F) (c : ℕ) : List F :=
  (List.range c).map fun i => evalPoly received (α ^ i)

/-- Number of nonzero symbols of an error pattern. -/
def weight {F : Type*} [Field F] [DecidableEq F] (l : List F) : ℕ :=
  l.countP fun a => decide (a ≠ 0)

/-- The nonzero elements of the field, listed once each (the magnitudes an
error symbol can take; the spec's Chien/Forney steps range over "all nonzero
field elements"). -/
def nzElems (F : Type*) [Field F] [DecidableEq F] [FinEnum F] : List F :=
  (FinEnum.toList F).filter fun a => decide (a ≠ 0)

/-- All length-`n` symbol sequences with at most `t` nonzero entries: the
candidate error patterns a bounded-distance decoder may correct. -/
def errorPatterns (F : Type*) [Field F] [DecidableEq F] [FinEnum F] : ℕ → ℕ → List (List F)
  | 0, _ => [[]]
  | n + 1, t =>
      ((errorPatterns F n t).map fun e => (0 : F) :: e) ++
        (if t = 0 then []
         else (nzElems F).flatMap fun a => (errorPatterns F n (t - 1)).map fun e => a :: e)

/-- Modelled from the spec: the syndrome-based decoder of the Codec Engine
(§4.3, realized in the source by `reedsolo.RSCodec.decode`, not part of this
repository), at the level of its specified contract.  Step 2: if all
syndromes vanish, return the data portion unchanged.  Otherwise the
locator/evaluator pipeline (steps 3-7) corrects exactly the error patterns of
weight at most `floor(checkLength/2)` that restore all syndromes to zero,
failing when no such pattern is uniquely determined (capacity exceeded,
inconsistent locator, or non-converging correction). -/
def rsDecode {F : Type*} [Field F] [DecidableEq F] [FinEnum F]
    (α : F) (received : List F) (c : ℕ) : Option (List F) :=
  if (rsSyndromes α received c).all (fun s => decide (s = 0)) then
    some (received.take (received.length - c))
  else
    match (errorPatterns F received.length (c / 2)).filter
        (fun e => (rsSyndromes α (List.zipWith (· - ·) received e) c).all fun s => decide (s = 0)) with
    | [e] => some ((List.zipWith (· - ·) received e).take (received.length - c))
    | _ => none

/-- The `Instance` class (`main.py` lines 33-85): quantized data, the encoded
word and the check digits.  Since `encoded = data; encoded.extend(check_digits)`
extends the same underlying array that `self.data` refers to, both fields end
up holding the quantized signal followed by the supplied check digits. -/
structure PInstance (F : Type*) where
  num_checks : ℕ
  data : List F
  encoded : List F
  check_digits : List F

/-- Constructor `Instance.__init__` (`main.py` lines 39-73).  The symbol-to-field
embedding `ι` plays the role of feeding the extracted digits to the codec as
field elements. -/
def mkInstance {F : Type*} [Field F] (ι : ℤ → F) (c : ℕ) (file : List (List ℚ))
    (checks : List F) : PInstance F :=
  let d := (quantize file).map ι ++ checks
  ⟨c, d, d, checks⟩

/-- Method `Instance.calculate_check_digits` (`main.py` lines 75-85): re-encode the
data, store the encoded word, and keep its last `num_checks` symbols as the
check digits. -/
def calcCheckDigits {F : Type*} [Field F] (α : F) (inst : PInstance F) : PInstance F :=
  let enc := rsEncode α inst.data inst.num_checks
  ⟨inst.num_checks, inst.data, enc, enc.drop (enc.length - inst.num_checks)⟩

/-- The `Part` class (`main.py` lines 88-101): a master instance together
with its computed check digits. -/
structure PartR (F : Type*) where
  num_checks : ℕ
  master : PInstance F

/-- Constructor `Part.__init__` (`main.py` lines 94-101). -/
def mkPart {F : Type*} [Field F] (α : F) (ι : ℤ → F) (c : ℕ)
    (file : List (List ℚ)) : PartR F :=
  ⟨c, calcCheckDigits α (mkInstance ι c file [])⟩

/-- Method `Part.check_candidate` (`main.py` lines 103-119): build the candidate
instance with the master's check digits, try to decode `candidate.data`, and
convert success/failure into the boolean verdict; the bare `except:` means
every decode failure, of any kind, becomes `False`. -/
def checkCandidate {F : Type*} [Field F] [DecidableEq F] [FinEnum F]
    (α : F) (ι : ℤ → F) (p : PartR F) (file : List (List ℚ)) : Bool :=
  let cand := mkInstance ι p.num_checks file p.master.check_digits
  match rsDecode α cand.data p.num_checks with
  | some _ => true
  | none => false

/-- The same-group calibration loop of `main` (`main.py` lines 287-292):
starting from `min_check = 0`, raise it to `2 * num_diff` whenever that is
larger.  A crash of `num_differences` (`IndexError`) propagates. -/
def calibrateMin (mFile : List (List ℚ)) (part : List (List (List ℚ))) : Option ℕ :=
  part.foldl (fun acc f => do
    let m ← acc
    let d ← numDifferences mFile f
    pure (if m < 2 * d then 2 * d else m)) (some 0)

/-- The other-group calibration loop of `main` (`main.py` lines 293-298):
starting from the upper bound `max_check = 7500`, lower it to `2 * num_diff`
whenever that is smaller. -/
def calibrateMax (mFile : List (List ℚ)) (others : List (List (List ℚ))) : Option ℕ :=
  others.foldl (fun acc f => do
    let m ← acc
    let d ← numDifferences mFile f
    pure (if 2 * d < m then 2 * d else m)) (some 7500)

/-- The per-master test flow of `main` (`main.py` lines 299-326): with the
calibrated bounds in hand, compute `check = (min_check + max_check) / 2`; if
`min_check >= max_check` report that the Hamming distance is too large and do
nothing else (`none`), otherwise build the `Part` and run `check_candidate`
on every same-group instance and on the chosen other-group instances. -/
def runMasterTests {F : Type*} [Field F] [DecidableEq F] [FinEnum F]
    (α : F) (ι : ℤ → F) (min_check max_check : ℕ) (masterFile : List (List ℚ))
    (part others : List (List (List ℚ))) : Option (PartR F × List Bool × List Bool) :=
  if min_check ≥ max_check then none
  else
    let check := (min_check + max_check) / 2
    let master := mkPart α ι check masterFile
    some (master, part.map (checkCandidate α ι master), others.map (checkCandidate α ι master))

/-- A concrete field context used to exercise the development on explicit
inputs. -/
instance : Fact (Nat.Prime 17) := ⟨by norm_num⟩

/-- A computable enumeration of the concrete field. -/
instance : FinEnum (ZMod 17) := FinEnum.ofEquiv (Fin 17) (Equiv.refl (Fin 17))

/-! ## Quantizer lemmas -/

attribute [local semireducible] Rat.add Rat.sub Rat.mul Rat.inv Rat.ofScientific

/-- The fuel-driven logarithm brackets its argument between consecutive
powers of ten whenever the fuel suffices. -/
lemma log10fuel_bounds : ∀ (fuel n : ℕ), n ≤ fuel →
    (n ≠ 0 → 10 ^ log10fuel fuel n ≤ n) ∧ n < 10 ^ (log10fuel fuel n + 1) := by
  intro fuel
  induction fuel with
  | zero =>
    intro n hn
    have : n = 0 := by omega
    subst this
    simp [log10fuel]
  | succ fuel ih =>
    intro n hn
    rw [log10fuel]
    by_cases h10 : n < 10
    · rw [if_pos h10]
      constructor
      · intro h0
        simpa using Nat.one_le_iff_ne_zero.2 h0
      · simpa using h10
    · rw [if_neg h10]
      push_neg at h10
      have hdiv : n / 10 ≤ fuel := by
        have := Nat.div_lt_self (by omega : 0 < n) (by norm_num : (1 : ℕ) < 10)
        omega
      obtain ⟨ih1, ih2⟩ := ih (n / 10) hdiv
      have hne : n / 10 ≠ 0 := by
        have : 1 ≤ n / 10 := (Nat.one_le_div_iff (by norm_num)).2 h10
        omega
      constructor
      · intro _
        have h1 := ih1 hne
        calc 10 ^ (log10fuel fuel (n / 10) + 1)
            = 10 ^ log10fuel fuel (n / 10) * 10 := by ring
          _ ≤ n / 10 * 10 := Nat.mul_le_mul_right 10 h1
          _ ≤ n := Nat.div_mul_le_self n 10
      · have h2 : n / 10 < 10 ^ (log10fuel fuel (n / 10) + 1) := ih2
        have hp : (10 : ℕ) ^ (log10fuel fuel (n / 10) + 1 + 1) =
            10 * 10 ^ (log10fuel fuel (n / 10) + 1) := by ring
        rw [hp]
        omega

/-- The power `10 ^ natLog10 n` is at most `n` for nonzero `n`. -/
lemma pow_natLog10_le (n : ℕ) (hn : n ≠ 0) : 10 ^ natLog10 n ≤ n :=
  (log10fuel_bounds n n le_rfl).1 hn

/-- Every `n` lies strictly below the next power of ten after `natLog10 n`. -/
lemma lt_pow_natLog10_succ (n : ℕ) : n < 10 ^ (natLog10 n + 1) :=
  (log10fuel_bounds n n le_rfl).2

/-- The extracted value sits below the next power of ten above `ilog10`. -/
lemma lt_zpow_ilog10_succ (v : ℚ) (hv : 0 < v) : v < (10 : ℚ) ^ (ilog10 v + 1) := by
  unfold ilog10
  by_cases h1 : 1 ≤ v
  · rw [if_pos h1]
    have hfl : (1 : ℤ) ≤ ⌊v⌋ := Int.le_floor.2 (by exact_mod_cast h1)
    have hne : ⌊v⌋.toNat ≠ 0 := by omega
    have hlog : ⌊v⌋.toNat < 10 ^ (natLog10 ⌊v⌋.toNat + 1) :=
      lt_pow_natLog10_succ ⌊v⌋.toNat
    have hfl2 : ⌊v⌋ + 1 ≤ ((10 : ℕ) ^ (natLog10 ⌊v⌋.toNat + 1) : ℕ) := by omega
    have hv1 : v < (⌊v⌋ : ℚ) + 1 := Int.lt_floor_add_one v
    calc v < (⌊v⌋ : ℚ) + 1 := hv1
      _ ≤ ((10 : ℕ) ^ (natLog10 ⌊v⌋.toNat + 1) : ℕ) := by exact_mod_cast hfl2
      _ = (10 : ℚ) ^ ((natLog10 ⌊v⌋.toNat : ℤ) + 1) := by
          rw [show (natLog10 ⌊v⌋.toNat : ℤ) + 1 = ((natLog10 ⌊v⌋.toNat + 1 : ℕ) : ℤ) by
            push_cast; ring]
          rw [zpow_natCast]
          push_cast
          ring
  · rw [if_neg h1]
    push_neg at h1
    have hinv : 1 < 1 / v := by
      rw [lt_div_iff₀ hv]
      simpa using h1
    have hfl : (1 : ℤ) ≤ ⌊1 / v⌋ := Int.le_floor.2 (by exact_mod_cast hinv.le)
    have hne : ⌊1 / v⌋.toNat ≠ 0 := by omega
    have hlog : 10 ^ natLog10 ⌊1 / v⌋.toNat ≤ ⌊1 / v⌋.toNat :=
      pow_natLog10_le _ hne
    have hle : ((10 : ℚ) ^ (natLog10 ⌊1 / v⌋.toNat : ℕ)) ≤ 1 / v := by
      calc ((10 : ℚ) ^ (natLog10 ⌊1 / v⌋.toNat : ℕ))
          = ((10 ^ natLog10 ⌊1 / v⌋.toNat : ℕ) : ℚ) := by push_cast; ring
        _ ≤ ((⌊1 / v⌋.toNat : ℕ) : ℚ) := by exact_mod_cast hlog
        _ = ((⌊1 / v⌋ : ℤ) : ℚ) := by
            exact_mod_cast Int.toNat_of_nonneg (by omega : (0 : ℤ) ≤ ⌊1 / v⌋)
        _ ≤ 1 / v := Int.floor_le _
    have hvle : v ≤ (10 : ℚ) ^ (-(natLog10 ⌊1 / v⌋.toNat : ℤ)) := by
      have hp : (0 : ℚ) < (10 : ℚ) ^ (natLog10 ⌊1 / v⌋.toNat : ℕ) := by positivity
      rw [zpow_neg, ← zpow_natCast (10 : ℚ) (natLog10 ⌊1 / v⌋.toNat)] at *
      rw [le_inv_comm₀ hv (by positivity)] at *
      · calc (10 : ℚ) ^ ((natLog10 ⌊1 / v⌋.toNat : ℕ) : ℤ) ≤ 1 / v := hle
          _ = v⁻¹ := one_div v
    have hstep : (10 : ℚ) ^ (-(natLog10 ⌊1 / v⌋.toNat : ℤ)) <
        (10 : ℚ) ^ (-(natLog10 ⌊1 / v⌋.toNat : ℤ) + 1) := by
      rw [zpow_add_one₀ (by norm_num : (10 : ℚ) ≠ 0)]
      have hp : (0 : ℚ) < (10 : ℚ) ^ (-(natLog10 ⌊1 / v⌋.toNat : ℤ)) :=
        zpow_pos (by norm_num) _
      nlinarith
    exact lt_of_le_of_lt hvle hstep

/-- Every digit the extraction step produces from a positive value lies in
`[0, 9]`. -/
lemma pyInt_digit_bounds (v : ℚ) (hv : 0 < v) :
    0 ≤ pyInt (v / (10 : ℚ) ^ ilog10 v) ∧ pyInt (v / (10 : ℚ) ^ ilog10 v) ≤ 9 := by
  have hpow : (0 : ℚ) < (10 : ℚ) ^ ilog10 v := zpow_pos (by norm_num) _
  have hq : (0 : ℚ) < v / (10 : ℚ) ^ ilog10 v := div_pos hv hpow
  have hq10 : v / (10 : ℚ) ^ ilog10 v < 10 := by
    rw [div_lt_iff₀ hpow]
    calc v < (10 : ℚ) ^ (ilog10 v + 1) := lt_zpow_ilog10_succ v hv
      _ = 10 * (10 : ℚ) ^ ilog10 v := by
          rw [zpow_add_one₀ (by norm_num : (10 : ℚ) ≠ 0)]
          ring
  have hpy : pyInt (v / (10 : ℚ) ^ ilog10 v) = ⌊v / (10 : ℚ) ^ ilog10 v⌋ := by
    unfold pyInt
    rw [if_neg (by linarith)]
  rw [hpy]
  constructor
  · exact Int.floor_nonneg.2 hq.le
  · have : ⌊v / (10 : ℚ) ^ ilog10 v⌋ < 10 := Int.floor_lt.2 (by exact_mod_cast hq10)
    omega

/-- Every symbol emitted by the digit-extraction loop is a digit in
`[0, 9]`, for any start value and any number of iterations. -/
lemma quantIter_mem_bounds : ∀ (i : ℕ) (v : ℚ), ∀ s ∈ quantIter i v, 0 ≤ s ∧ s ≤ 9 := by
  intro i
  induction i with
  | zero => intro v s hs; simp [quantIter] at hs
  | succ i ih =>
    intro v s hs
    rw [quantIter] at hs
    by_cases h0 : v = 0
    · rw [if_pos h0] at hs
      rcases List.mem_cons.1 hs with h | h
      · omega
      · exact ih v s h
    · rw [if_neg h0] at hs
      simp only at hs
      rcases List.mem_cons.1 hs with h | h
      · subst h
        set v1 := if v < 0 then v * (-1) else v with hv1
        have hv1pos : 0 < v1 := by
          rw [hv1]
          rcases lt_trichotomy v 0 with hneg | hz | hpos
          · rw [if_pos hneg]; linarith
          · exact absurd hz h0
          · rw [if_neg (by linarith)]; exact hpos
        set v2 := if 0 < v1 ∧ v1 < 1 then v1 * 10 else v1 with hv2
        have hv2pos : 0 < v2 := by
          rw [hv2]
          by_cases hcond : 0 < v1 ∧ v1 < 1
          · rw [if_pos hcond]; linarith
          · rw [if_neg hcond]; exact hv1pos
        exact pyInt_digit_bounds v2 hv2pos
      · exact ih _ s h

/-- The two textually duplicated digit-extraction loops compute the same
symbols. -/
lemma ndQuantIter_eq_quantIter : ∀ (i : ℕ) (v : ℚ), ndQuantIter i v = quantIter i v := by
  intro i
  induction i with
  | zero => intro v; rfl
  | succ i ih =>
    intro v
    rw [ndQuantIter, quantIter]
    by_cases h0 : v = 0 <;> simp [h0, ih]

/-- Under the exact-rational idealization of the source's floating-point
arithmetic, each symbol emitted by the quantizer is a decimal digit in
`[0, 9]`.  This does not speak to the IEEE-double `log10` rounding at
power-of-ten boundaries, which the exact semantics of `ilog10` cannot
exhibit. -/
theorem quantize_symbols_in_alphabet (file : List (List ℚ)) :
    ∀ s ∈ quantize file, 0 ≤ s ∧ s ≤ 9 := by
  intro s hs
  rw [quantize, List.mem_flatMap] at hs
  obtain ⟨row, _, hs⟩ := hs
  rw [List.mem_flatMap] at hs
  obtain ⟨v, _, hs⟩ := hs
  exact quantIter_mem_bounds 5 v s hs

/-- Concrete instance of the exact-model digit-range fact: `75` quantizes to
`[7, 5, 0, 0, 0]`, and the symbol `7` is a digit. -/
theorem quantize_symbols_in_alphabet_witness :
    (7 : ℤ) ∈ quantize [[(75 : ℚ)]] ∧ 0 ≤ (7 : ℤ) ∧ (7 : ℤ) ≤ 9 :=
  ⟨by decide, quantize_symbols_in_alphabet [[(75 : ℚ)]] 7 (by decide)⟩

/-- Claim C8: a raw value equal to exactly `0` contributes exactly `K = 5`
zero symbols, and the quantization of the surrounding rows and values is
unaffected. -/
theorem quantize_zero_emits_five_zeros (pre post : List (List ℚ)) (r1 r2 : List ℚ) :
    quantizeValue 0 = List.replicate 5 0 ∧
      quantize (pre ++ (r1 ++ 0 :: r2) :: post) =
        quantize pre ++ (r1.flatMap quantizeValue ++
          (List.replicate 5 0 ++ (r2.flatMap quantizeValue ++ quantize post))) := by
  have h0 : quantizeValue 0 = 0 :: 0 :: 0 :: 0 :: 0 :: [] := rfl
  refine ⟨rfl, ?_⟩
  simp [quantize, List.flatMap_append, List.flatMap_cons, List.append_assoc, h0]

/-- Claim C10: the quantization implemented in `Instance.__init__` and the
copy duplicated inside `num_differences` produce identical symbol sequences
on every raw input matrix. -/
theorem quantizer_implementations_agree (file : List (List ℚ)) :
    ndQuantize file = quantize file := by
  simp only [ndQuantize, quantize, ndQuantIter_eq_quantIter]
  rfl

/-! ## `num_differences` and calibration -/

/-- Counting mismatches by indexing over the master's index range is the same
as the Hamming distance of the zipped (master-length) prefix, as long as every
index is in range for the candidate. -/
lemma range_filter_diff_eq_diffCount {γ : Type*} [DecidableEq γ] (d : γ) :
    ∀ (a b : List γ), a.length ≤ b.length →
      ((List.range a.length).filter fun i => decide (a.getD i d ≠ b.getD i d)).length
        = diffCount a b := by
  intro a
  induction a with
  | nil => intro b h; simp [diffCount]
  | cons x a' ih =>
    intro b h
    cases b with
    | nil => simp at h
    | cons y b' =>
      have h' : a'.length ≤ b'.length := by simpa using h
      have hrest := ih b' h'
      rw [List.length_cons, List.range_succ_eq_map, List.filter_cons, List.filter_map]
      have hcomp : ((fun i => decide (List.getD (x :: a') i d ≠ List.getD (y :: b') i d)) ∘
          Nat.succ) = fun i => decide (a'.getD i d ≠ b'.getD i d) := by
        funext i
        simp [List.getD_cons_succ]
      rw [hcomp]
      have hd : diffCount (x :: a') (y :: b') =
          (if x ≠ y then 1 else 0) + diffCount a' b' := by
        simp only [diffCount, List.zip_cons_cons, List.countP_cons]
        by_cases hxy : x = y <;> simp [hxy] <;> omega
      rw [hd, ← hrest]
      by_cases hxy : x = y <;> simp [hxy, List.getD_cons_zero] <;> omega

/-- Claim C6 (amended): `num_differences` does not treat a length mismatch as
a failure in both directions: when the candidate's quantized sequence is
shorter than the master's it crashes (`IndexError`), but when it is longer it
silently compares only the master-length prefix and returns that count. -/
theorem num_differences_prefix_semantics (mFile cFile : List (List ℚ)) :
    numDifferences mFile cFile =
      if (ndQuantize cFile).length < (ndQuantize mFile).length then none
      else some (diffCount (ndQuantize mFile) (ndQuantize cFile)) := by
  rw [numDifferences]
  by_cases h : (ndQuantize cFile).length < (ndQuantize mFile).length
  · simp [h]
  · push_neg at h
    simp only [if_neg (not_lt.2 h)]
    rw [range_filter_diff_eq_diffCount 0 _ _ h]

/-- Claim C6 counterexample: a candidate whose quantized sequence is longer
than the master's is not rejected; `num_differences` silently compares only a
prefix and reports zero differences. -/
theorem num_differences_truncates_counterexample :
    (ndQuantize [[(1 : ℚ)], [1]]).length ≠ (ndQuantize [[(1 : ℚ)]]).length ∧
      numDifferences [[(1 : ℚ)]] [[(1 : ℚ)], [1]] = some 0 := by
  constructor <;> decide

/-- Peeling one file off the same-group calibration fold. -/
lemma if_max_eq (m x : ℕ) : (if m < x then x else m) = max m x := by
  rcases le_or_lt x m with h | h
  · rw [if_neg (by omega), max_eq_left h]
  · rw [if_pos h, max_eq_right (le_of_lt h)]

/-- Peeling one file off the other-group calibration fold. -/
lemma if_min_eq (m x : ℕ) : (if x < m then x else m) = min m x := by
  rcases le_or_lt m x with h | h
  · rw [if_neg (by omega), min_eq_left h]
  · rw [if_pos h, min_eq_right (le_of_lt h)]

/-- The same-group fold computes the running maximum of the doubled
distances. -/
lemma calibrateMin_fold (mFile : List (List ℚ)) :
    ∀ (part : List (List (List ℚ))) (ds : List ℕ) (m : ℕ),
      part.map (numDifferences mFile) = ds.map some →
      part.foldl (fun acc f => do
          let m' ← acc
          let d ← numDifferences mFile f
          pure (if m' < 2 * d then 2 * d else m')) (some m)
        = some (ds.foldl (fun m' d => max m' (2 * d)) m) := by
  intro part
  induction part with
  | nil =>
    intro ds m h
    rw [List.map_nil] at h
    rw [List.map_eq_nil_iff.1 h.symm]
    rfl
  | cons f part' ih =>
    intro ds m h
    cases ds with
    | nil => simp at h
    | cons dd ds' =>
      rw [List.map_cons, List.map_cons] at h
      have hf : numDifferences mFile f = some dd := (List.cons_eq_cons.1 h).1
      have ht : part'.map (numDifferences mFile) = ds'.map some := (List.cons_eq_cons.1 h).2
      rw [List.foldl_cons, List.foldl_cons]
      have hstep : (do
          let m' ← some m
          let d ← numDifferences mFile f
          pure (if m' < 2 * d then 2 * d else m')) = some (max m (2 * dd)) := by
        rw [hf]
        simp [if_max_eq]
      rw [hstep]
      exact ih ds' (max m (2 * dd)) ht

/-- The other-group fold computes the running minimum of the doubled
distances. -/
lemma calibrateMax_fold (mFile : List (List ℚ)) :
    ∀ (others : List (List (List ℚ))) (ds : List ℕ) (m : ℕ),
      others.map (numDifferences mFile) = ds.map some →
      others.foldl (fun acc f => do
          let m' ← acc
          let d ← numDifferences mFile f
          pure (if 2 * d < m' then 2 * d else m')) (some m)
        = some (ds.foldl (fun m' d => min m' (2 * d)) m) := by
  intro others
  induction others with
  | nil =>
    intro ds m h
    rw [List.map_nil] at h
    rw [List.map_eq_nil_iff.1 h.symm]
    rfl
  | cons f others' ih =>
    intro ds m h
    cases ds with
    | nil => simp at h
    | cons dd ds' =>
      rw [List.map_cons, List.map_cons] at h
      have hf : numDifferences mFile f = some dd := (List.cons_eq_cons.1 h).1
      have ht : others'.map (numDifferences mFile) = ds'.map some := (List.cons_eq_cons.1 h).2
      rw [List.foldl_cons, List.foldl_cons]
      have hstep : (do
          let m' ← some m
          let d ← numDifferences mFile f
          pure (if 2 * d < m' then 2 * d else m')) = some (min m (2 * dd)) := by
        rw [hf]
        simp [if_min_eq]
      rw [hstep]
      exact ih ds' (min m (2 * dd)) ht

/-- Doubling commutes with the running-maximum fold. -/
lemma foldl_max_two_mul : ∀ (ds : List ℕ) (a : ℕ),
    ds.foldl (fun m d => max m (2 * d)) (2 * a) = 2 * ds.foldl max a := by
  intro ds
  induction ds with
  | nil => intro a; rfl
  | cons d ds' ih =>
    intro a
    rw [List.foldl_cons, List.foldl_cons]
    have : max (2 * a) (2 * d) = 2 * max a d := by omega
    rw [this, ih]

/-- Doubling commutes with the running-minimum fold. -/
lemma foldl_min_two_mul : ∀ (ds : List ℕ) (a : ℕ),
    ds.foldl (fun m d => min m (2 * d)) (2 * a) = 2 * ds.foldl min a := by
  intro ds
  induction ds with
  | nil => intro a; rfl
  | cons d ds' ih =>
    intro a
    rw [List.foldl_cons, List.foldl_cons]
    have : min (2 * a) (2 * d) = 2 * min a d := by omega
    rw [this, ih]

/-- Claim C4: calibration computes `min_check` as twice the maximum Hamming
distance over the same-group signals and `max_check` as twice the minimum
Hamming distance over the other-group signals, capped by the upper bound
`7500 = 2 * 3750`. -/
theorem calibration_bounds (mFile : List (List ℚ)) (part others : List (List (List ℚ)))
    (sds ods : List ℕ)
    (hsame : part.map (numDifferences mFile) = sds.map some)
    (hother : others.map (numDifferences mFile) = ods.map some) :
    calibrateMin mFile part = some (2 * sds.foldl max 0) ∧
      calibrateMax mFile others = some (2 * ods.foldl min 3750) := by
  constructor
  · rw [calibrateMin, calibrateMin_fold mFile part sds 0 hsame]
    rw [show (0 : ℕ) = 2 * 0 from rfl, foldl_max_two_mul]
  · rw [calibrateMax, calibrateMax_fold mFile others ods 7500 hother]
    rw [show (7500 : ℕ) = 2 * 3750 from rfl, foldl_min_two_mul]

set_option maxRecDepth 100000 in
/-- Witness for C4: concrete signals at same-group distances `{2, 4, 6}` and
other-group distances `{50, 60}` calibrate to `min_check = 12` and
`max_check = 100`. -/
theorem calibration_bounds_witness :
    calibrateMin [List.replicate 60 (1 : ℚ)]
        [[List.replicate 2 (2 : ℚ) ++ List.replicate 58 1],
         [List.replicate 4 (2 : ℚ) ++ List.replicate 56 1],
         [List.replicate 6 (2 : ℚ) ++ List.replicate 54 1]] = some 12 ∧
      calibrateMax [List.replicate 60 (1 : ℚ)]
        [[List.replicate 50 (2 : ℚ) ++ List.replicate 10 1],
         [List.replicate 60 (2 : ℚ)]] = some 100 := by
  have h := calibration_bounds [List.replicate 60 (1 : ℚ)]
    [[List.replicate 2 (2 : ℚ) ++ List.replicate 58 1],
     [List.replicate 4 (2 : ℚ) ++ List.replicate 56 1],
     [List.replicate 6 (2 : ℚ) ++ List.replicate 54 1]]
    [[List.replicate 50 (2 : ℚ) ++ List.replicate 10 1],
     [List.replicate 60 (2 : ℚ)]]
    [2, 4, 6] [50, 60] (by decide) (by decide)
  simpa using h

/-- Claim C5: whenever the computed `min_check` is at least the computed
`max_check`, the per-master flow only reports that the Hamming distance is too
large: no Reference Record (`Part`) is built and no candidate is
authenticated with an unsafe check length. -/
theorem infeasible_calibration_skips_part {F : Type*} [Field F] [DecidableEq F] [FinEnum F]
    (α : F) (ι : ℤ → F) (min_check max_check : ℕ) (masterFile : List (List ℚ))
    (part others : List (List (List ℚ))) (h : min_check ≥ max_check) :
    runMasterTests α ι min_check max_check masterFile part others = none := by
  rw [runMasterTests, if_pos h]

/-- Witness for C5 at the spec's infeasibility scenario bounds
(`2 × 40 ≥ 2 × 30`). -/
theorem infeasible_calibration_skips_part_witness :
    runMasterTests (3 : ZMod 17) Int.cast 80 60 [[(1 : ℚ)]] [] [] = none :=
  infeasible_calibration_skips_part (3 : ZMod 17) Int.cast 80 60 [[(1 : ℚ)]] [] []
    (by decide)

/-! ## Polynomial evaluation -/

/-- Horner's rule with an arbitrary accumulator. -/
lemma foldl_eval {F : Type*} [Field F] (x : F) : ∀ (l : List F) (acc : F),
    List.foldl (fun a b => a * x + b) acc l = acc * x ^ l.length + evalPoly l x := by
  intro l
  induction l with
  | nil => intro acc; simp [evalPoly]
  | cons a tl ih =>
    intro acc
    have h2 : evalPoly (a :: tl) x = a * x ^ tl.length + evalPoly tl x := by
      rw [evalPoly, List.foldl_cons, ih (0 * x + a)]
      ring
    rw [List.foldl_cons, ih (acc * x + a), h2, List.length_cons]
    ring

/-- Evaluation of a cons cell. -/
lemma evalPoly_cons {F : Type*} [Field F] (a : F) (tl : List F) (x : F) :
    evalPoly (a :: tl) x = a * x ^ tl.length + evalPoly tl x := by
  rw [evalPoly, List.foldl_cons, foldl_eval]
  ring

/-- Evaluation of an append. -/
lemma evalPoly_append {F : Type*} [Field F] (u v : List F) (x : F) :
    evalPoly (u ++ v) x = evalPoly u x * x ^ v.length + evalPoly v x := by
  rw [evalPoly, List.foldl_append, foldl_eval]
  rfl

/-- Zero padding evaluates to zero. -/
lemma evalPoly_replicate_zero {F : Type*} [Field F] (m : ℕ) (x : F) :
    evalPoly (List.replicate m 0) x = 0 := by
  induction m with
  | zero => rfl
  | succ m ih => rw [List.replicate_succ, evalPoly_cons, ih]; ring

/-- Evaluation commutes with scaling all coefficients. -/
lemma evalPoly_map_mul {F : Type*} [Field F] (b : F) (x : F) : ∀ (l : List F),
    evalPoly (l.map (b * ·)) x = b * evalPoly l x := by
  intro l
  induction l with
  | nil => simp [evalPoly]
  | cons a tl ih => rw [List.map_cons, evalPoly_cons, evalPoly_cons, ih]; simp; ring

/-- Evaluation commutes with negating all coefficients. -/
lemma evalPoly_map_neg {F : Type*} [Field F] (x : F) : ∀ (l : List F),
    evalPoly (l.map fun y => -y) x = -evalPoly l x := by
  intro l
  induction l with
  | nil => simp [evalPoly]
  | cons a tl ih => rw [List.map_cons, evalPoly_cons, evalPoly_cons, ih]; simp; ring

/-- Evaluation is linear over coefficient-wise subtraction of equally long
lists. -/
lemma evalPoly_zipWith_sub {F : Type*} [Field F] (x : F) : ∀ (u v : List F),
    u.length = v.length →
    evalPoly (List.zipWith (· - ·) u v) x = evalPoly u x - evalPoly v x := by
  intro u
  induction u with
  | nil =>
    intro v h
    have : v = [] := List.length_eq_zero.1 h.symm
    subst this
    simp [evalPoly]
  | cons a tl ih =>
    intro v h
    cases v with
    | nil => simp at h
    | cons b tl' =>
      have h' : tl.length = tl'.length := by simpa using h
      rw [List.zipWith_cons_cons, evalPoly_cons, evalPoly_cons, evalPoly_cons, ih tl' h',
        List.length_zipWith, h', min_self]
      ring

/-! ## Generator polynomial -/

/-- Multiplying by `X - r` adds one coefficient. -/
lemma polyMulXsub_length {F : Type*} [Field F] (g : List F) (r : F) :
    (polyMulXsub g r).length = g.length + 1 := by
  simp [polyMulXsub]

/-- Multiplying the coefficient list by `X - r` multiplies the evaluation. -/
lemma polyMulXsub_eval {F : Type*} [Field F] (g : List F) (r x : F) :
    evalPoly (polyMulXsub g r) x = evalPoly g x * (x - r) := by
  have h0 : evalPoly [(0 : F)] x = 0 := by
    rw [show [(0 : F)] = (0 : F) :: [] from rfl, evalPoly_cons]
    simp [evalPoly]
  rw [polyMulXsub, evalPoly_zipWith_sub x _ _ (by simp), evalPoly_append, h0,
    evalPoly_cons (0 : F), evalPoly_map_mul]
  simp only [List.length_singleton, List.length_map, pow_one]
  ring

/-- The generator is monic of degree `c`. -/
lemma rsGenerator_shape {F : Type*} [Field F] (α : F) :
    ∀ c : ℕ, ∃ gt : List F, rsGenerator α c = 1 :: gt ∧ gt.length = c := by
  intro c
  induction c with
  | zero => exact ⟨[], rfl, rfl⟩
  | succ c ih =>
    obtain ⟨gt, hg, hl⟩ := ih
    refine ⟨List.zipWith (· - ·) (gt ++ [0]) ((1 :: gt).map (α ^ c * ·)), ?_, ?_⟩
    · rw [rsGenerator, hg, polyMulXsub, List.cons_append, List.zipWith_cons_cons, sub_zero]
    · simp [hl]

/-- The generator vanishes at each of its construction roots. -/
lemma rsGenerator_root {F : Type*} [Field F] (α : F) :
    ∀ (c i : ℕ), i < c → evalPoly (rsGenerator α c) (α ^ i) = 0 := by
  intro c
  induction c with
  | zero => intro i hi; omega
  | succ c ih =>
    intro i hi
    rw [rsGenerator, polyMulXsub_eval]
    by_cases hic : i = c
    · subst hic
      simp
    · rw [ih i (by omega)]
      ring

/-! ## Systematic division and encoding -/

/-- Each division step preserves the list length bookkeeping: starting from a
word of length `n + gt.length`, `n` steps leave exactly `gt.length`
coefficients. -/
lemma remSteps_length {F : Type*} [Field F] (gt : List F) :
    ∀ (n : ℕ) (a : List F), a.length = n + gt.length →
      (remSteps gt n a).length = gt.length := by
  intro n
  induction n with
  | zero => intro a h; simpa [remSteps] using h
  | succ n ih =>
    intro a h
    cases a with
    | nil =>
      exfalso
      simp only [List.length_nil] at h
      omega
    | cons x rest =>
      rw [remSteps]
      have hrest : rest.length = n + gt.length := by
        simp only [List.length_cons] at h
        omega
      apply ih
      rw [List.length_zipWith, List.length_append, List.length_map, List.length_replicate]
      omega

/-- At a root of the monic generator `1 :: gt`, every division step preserves
the evaluation of the word. -/
lemma remSteps_eval {F : Type*} [Field F] (gt : List F) (ρ : F)
    (hroot : evalPoly (1 :: gt) ρ = 0) :
    ∀ (n : ℕ) (a : List F), a.length = n + gt.length →
      evalPoly (remSteps gt n a) ρ = evalPoly a ρ := by
  intro n
  induction n with
  | zero => intro a h; rfl
  | succ n ih =>
    intro a h
    cases a with
    | nil =>
      exfalso
      simp only [List.length_nil] at h
      omega
    | cons x rest =>
      have hrest : rest.length = n + gt.length := by
        simp only [List.length_cons] at h
        omega
      have hgle : gt.length ≤ rest.length := by omega
      rw [remSteps]
      have hslen : (List.zipWith (· - ·) rest
          (gt.map (x * ·) ++ List.replicate (rest.length - gt.length) 0)).length
          = n + gt.length := by
        rw [List.length_zipWith, List.length_append, List.length_map, List.length_replicate]
        omega
      rw [ih _ hslen]
      have hgteval : evalPoly gt ρ = -ρ ^ gt.length := by
        have := hroot
        rw [evalPoly_cons] at this
        have h1 : (1 : F) * ρ ^ gt.length + evalPoly gt ρ = 0 := this
        linear_combination h1
      rw [evalPoly_zipWith_sub ρ _ _ (by
        rw [List.length_append, List.length_map, List.length_replicate]; omega)]
      rw [evalPoly_append, evalPoly_replicate_zero, evalPoly_map_mul, evalPoly_cons, hgteval,
        List.length_replicate]
      have hpow : ρ ^ gt.length * ρ ^ (rest.length - gt.length) = ρ ^ rest.length := by
        rw [← pow_add]
        congr 1
        omega
      linear_combination x * hpow

/-- The encoded word has the right length. -/
lemma rsEncode_length {F : Type*} [Field F] (α : F) (data : List F) (c : ℕ) :
    (rsEncode α data c).length = data.length + c := by
  obtain ⟨gt, hg, hl⟩ := rsGenerator_shape α c
  rw [rsEncode, hg]
  simp only [List.tail_cons, List.length_append, List.length_map]
  rw [remSteps_length gt data.length (data ++ List.replicate c 0) (by simp [hl])]
  omega

/-- Key encoding property: the systematic codeword evaluates to zero at every
generator root, i.e. all its syndromes vanish. -/
lemma rsEncode_syndromes {F : Type*} [Field F] (α : F) (data : List F) (c i : ℕ)
    (hi : i < c) : evalPoly (rsEncode α data c) (α ^ i) = 0 := by
  obtain ⟨gt, hg, hl⟩ := rsGenerator_shape α c
  have hroot : evalPoly (1 :: gt) (α ^ i) = 0 := by
    rw [← hg]
    exact rsGenerator_root α c i hi
  have hlen0 : (data ++ List.replicate c 0).length = data.length + gt.length := by
    simp [hl]
  have hrlen : (remSteps gt data.length (data ++ List.replicate c 0)).length = gt.length :=
    remSteps_length gt data.length _ hlen0
  have hreval : evalPoly (remSteps gt data.length (data ++ List.replicate c 0)) (α ^ i)
      = evalPoly (data ++ List.replicate c 0) (α ^ i) :=
    remSteps_eval gt (α ^ i) hroot data.length _ hlen0
  rw [rsEncode, hg, List.tail_cons, evalPoly_append, List.length_map, evalPoly_map_neg,
    hreval, evalPoly_append, evalPoly_replicate_zero, List.length_replicate, hrlen, hl]
  ring

/-! ## Decoding -/

/-- The boolean syndrome check coincides with vanishing at all generator
roots. -/
lemma rsSyndromes_all_zero_iff {F : Type*} [Field F] [DecidableEq F] (α : F)
    (w : List F) (c : ℕ) :
    ((rsSyndromes α w c).all fun s => decide (s = 0)) = true ↔
      ∀ i, i < c → evalPoly w (α ^ i) = 0 := by
  rw [rsSyndromes, List.all_eq_true]
  constructor
  · intro h i hi
    have := h (evalPoly w (α ^ i)) (List.mem_map.2 ⟨i, List.mem_range.2 hi, rfl⟩)
    simpa using this
  · intro h s hs
    obtain ⟨i, hi, rfl⟩ := List.mem_map.1 hs
    simpa using h i (List.mem_range.1 hi)

/-- Zero-syndrome words decode immediately to their data portion (spec §4.3
step 2). -/
lemma rsDecode_of_syndromes_zero {F : Type*} [Field F] [DecidableEq F] [FinEnum F]
    (α : F) (w : List F) (c : ℕ) (h : ∀ i, i < c → evalPoly w (α ^ i) = 0) :
    rsDecode α w c = some (w.take (w.length - c)) := by
  rw [rsDecode, if_pos ((rsSyndromes_all_zero_iff α w c).2 h)]

/-- The check digits stored in a freshly built `Part` are the last
`num_checks` symbols of the systematic encoding of the master's quantized
data. -/
lemma mkPart_check_digits {F : Type*} [Field F] (α : F) (ι : ℤ → F) (c : ℕ)
    (file : List (List ℚ)) :
    (mkPart α ι c file).master.check_digits
      = (rsEncode α ((quantize file).map ι) c).drop ((quantize file).map ι).length := by
  set d0 : List F := (quantize file).map ι with hd0
  have hmdata : (mkInstance ι c file ([] : List F)).data = d0 := by
    rw [mkInstance]
    exact List.append_nil d0
  have hnum0 : (mkInstance ι c file ([] : List F)).num_checks = c := rfl
  have hrfl : (mkPart α ι c file).master.check_digits
      = (rsEncode α (mkInstance ι c file ([] : List F)).data
          (mkInstance ι c file ([] : List F)).num_checks).drop
          ((rsEncode α (mkInstance ι c file ([] : List F)).data
            (mkInstance ι c file ([] : List F)).num_checks).length
            - (mkInstance ι c file ([] : List F)).num_checks) := rfl
  rw [hrfl, hnum0, hmdata, rsEncode_length, Nat.add_sub_cancel]

/-- Splitting the codeword into data and check symbols and recombining them
is the identity. -/
lemma encode_split {F : Type*} [Field F] (α : F) (d : List F) (c : ℕ) :
    d ++ (rsEncode α d c).drop d.length = rsEncode α d c := by
  conv_lhs => rw [rsEncode]
  rw [List.drop_left, rsEncode]

/-- The decoder inverts the encoder on exact codewords (zero errors). -/
lemma rsDecode_encode {F : Type*} [Field F] [DecidableEq F] [FinEnum F]
    (α : F) (d : List F) (c : ℕ) :
    rsDecode α (rsEncode α d c) c = some d := by
  rw [rsDecode_of_syndromes_zero α _ c (fun i hi => rsEncode_syndromes α d c i hi)]
  congr 1
  rw [rsEncode_length, show d.length + c - c = d.length by omega]
  conv_lhs => rw [rsEncode]
  exact List.take_left _ _

/-- Claim C2: the round-trip identity.  Presenting the master file itself as
the candidate makes `check_candidate` return `true`: the word formed by the
master's quantized data followed by the check digits computed by
`calculate_check_digits` is a codeword, so it decodes with zero errors to the
quantized data. -/
theorem check_candidate_round_trip {F : Type*} [Field F] [DecidableEq F] [FinEnum F]
    (α : F) (ι : ℤ → F) (c : ℕ) (file : List (List ℚ)) :
    checkCandidate α ι (mkPart α ι c file) file = true ∧
      rsDecode α (mkInstance ι c file (mkPart α ι c file).master.check_digits).data c
        = some ((quantize file).map ι) := by
  set d0 : List F := (quantize file).map ι with hd0
  have hcand : (mkInstance ι c file ((mkPart α ι c file).master.check_digits)).data
      = d0 ++ (rsEncode α d0 c).drop d0.length := by
    rw [mkInstance, mkPart_check_digits]
  have hword : rsDecode α
      ((mkInstance ι c file ((mkPart α ι c file).master.check_digits)).data) c = some d0 := by
    rw [hcand, encode_split]
    exact rsDecode_encode α d0 c
  refine ⟨?_, hword⟩
  rw [checkCandidate]
  have hnum : (mkPart α ι c file).num_checks = c := rfl
  simp only [hnum]
  rw [hword]

/-- Claim C3: `check_candidate` returns `true` exactly when decoding the
candidate word succeeds; every decode failure, of any kind, becomes `false`
through the bare `except:`, and the verdict is a total boolean function of
the record and the candidate (no uncaught exception). -/
theorem check_candidate_iff_decode_success {F : Type*} [Field F] [DecidableEq F] [FinEnum F]
    (α : F) (ι : ℤ → F) (p : PartR F) (file : List (List ℚ)) :
    checkCandidate α ι p file = true ↔
      ∃ d, rsDecode α (mkInstance ι p.num_checks file p.master.check_digits).data p.num_checks
        = some d := by
  show (match rsDecode α (mkInstance ι p.num_checks file p.master.check_digits).data
      p.num_checks with
    | some _ => true
    | none => false) = true ↔ _
  cases h : rsDecode α (mkInstance ι p.num_checks file p.master.check_digits).data
      p.num_checks with
  | none => simp
  | some d => simp

/-- Claim C9: after constructing a candidate `Instance`, `data` and `encoded`
are the same sequence — the quantized signal followed by the supplied check
digits — and therefore the word `check_candidate` hands to the decoder as
`candidate.data` is the quantized candidate concatenated with the master's
check digits, not the data portion alone. -/
theorem instance_data_aliases_encoded {F : Type*} [Field F] [DecidableEq F] [FinEnum F]
    (α : F) (ι : ℤ → F) (c : ℕ) (file : List (List ℚ)) (checks : List F) (p : PartR F) :
    (mkInstance ι c file checks).data = (mkInstance ι c file checks).encoded ∧
      (mkInstance ι c file checks).data = (quantize file).map ι ++ checks ∧
      checkCandidate α ι p file =
        (rsDecode α ((quantize file).map ι ++ p.master.check_digits) p.num_checks).isSome := by
  refine ⟨rfl, rfl, ?_⟩
  show (match rsDecode α ((quantize file).map ι ++ p.master.check_digits) p.num_checks with
    | some _ => true
    | none => false) = _
  cases h : rsDecode α ((quantize file).map ι ++ p.master.check_digits) p.num_checks with
  | none => simp
  | some d => simp

/-! ## Weights, distances and error patterns -/

/-- Weight of a cons cell. -/
lemma weight_cons {F : Type*} [Field F] [DecidableEq F] (a : F) (l : List F) :
    weight (a :: l) = weight l + if a ≠ 0 then 1 else 0 := by
  rw [weight, weight, List.countP_cons]
  by_cases h : a = 0 <;> simp [h]

/-- Hamming distance of two cons cells. -/
lemma diffCount_cons {γ : Type*} [DecidableEq γ] (x y : γ) (a b : List γ) :
    diffCount (x :: a) (y :: b) = diffCount a b + if x ≠ y then 1 else 0 := by
  rw [diffCount, diffCount, List.zip_cons_cons, List.countP_cons]
  by_cases h : x = y <;> simp [h]

/-- A sequence is at distance zero from itself. -/
lemma diffCount_self {γ : Type*} [DecidableEq γ] : ∀ (u : List γ), diffCount u u = 0 := by
  intro u
  induction u with
  | nil => rfl
  | cons x u' ih => rw [diffCount_cons, ih]; simp

/-- Mapping both sequences through the same function cannot create new
mismatches. -/
lemma diffCount_map_le {γ δ : Type*} [DecidableEq γ] [DecidableEq δ] (f : γ → δ) :
    ∀ (a b : List γ), diffCount (a.map f) (b.map f) ≤ diffCount a b := by
  intro a
  induction a with
  | nil => intro b; simp [diffCount]
  | cons x a' ih =>
    intro b
    cases b with
    | nil => simp [diffCount]
    | cons y b' =>
      rw [List.map_cons, List.map_cons, diffCount_cons, diffCount_cons]
      have h2 := ih b'
      by_cases hxy : x = y
      · subst hxy
        simp only [ne_eq, not_true_eq_false, if_false]
        omega
      · have h3 : (if f x ≠ f y then 1 else 0) ≤ 1 := by
          by_cases h : f x = f y <;> simp [h]
        rw [if_pos hxy]
        omega

/-- The weight of a pointwise difference is the Hamming distance. -/
lemma weight_zipWith_sub_eq_diffCount {F : Type*} [Field F] [DecidableEq F] :
    ∀ (a b : List F), weight (List.zipWith (· - ·) a b) = diffCount a b := by
  intro a
  induction a with
  | nil => intro b; simp [weight, diffCount]
  | cons x a' ih =>
    intro b
    cases b with
    | nil => simp [weight, diffCount]
    | cons y b' =>
      rw [List.zipWith_cons_cons, weight_cons, diffCount_cons, ih b']
      congr 1
      by_cases h : x = y
      · simp [h]
      · simp [h, sub_ne_zero.2 h]

/-- Weight is subadditive under pointwise subtraction. -/
lemma weight_zipWith_sub_le {F : Type*} [Field F] [DecidableEq F] :
    ∀ (a b : List F), weight (List.zipWith (· - ·) a b) ≤ weight a + weight b := by
  intro a
  induction a with
  | nil => intro b; simp [weight]
  | cons x a' ih =>
    intro b
    cases b with
    | nil => simp [weight]
    | cons y b' =>
      rw [List.zipWith_cons_cons, weight_cons, weight_cons, weight_cons]
      have h2 := ih b'
      have h3 : (if x - y ≠ 0 then 1 else 0) ≤
          (if x ≠ 0 then 1 else 0) + ((if y ≠ 0 then 1 else 0) : ℕ) := by
        by_cases hx : x = 0
        · by_cases hy : y = 0
          · have hs : x - y = 0 := by rw [hx, hy, sub_zero]
            simp [hs]
          · have h1 : (if x - y ≠ 0 then 1 else 0) ≤ 1 := by
              by_cases hs : x - y = 0 <;> simp [hs]
            rw [if_pos hy]
            exact h1.trans (Nat.le_add_left 1 _)
        · have h1 : (if x - y ≠ 0 then 1 else 0) ≤ 1 := by
            by_cases hs : x - y = 0 <;> simp [hs]
          rw [if_pos hx]
          exact h1.trans (Nat.le_add_right 1 _)
      omega

/-- Subtracting the pointwise difference recovers the second sequence. -/
lemma zipWith_sub_sub_cancel {F : Type*} [Field F] :
    ∀ (a b : List F), a.length = b.length →
      List.zipWith (· - ·) a (List.zipWith (· - ·) a b) = b := by
  intro a
  induction a with
  | nil =>
    intro b h
    rw [List.length_nil] at h
    rw [(List.length_eq_zero).1 h.symm]
    rfl
  | cons x a' ih =>
    intro b h
    cases b with
    | nil => simp at h
    | cons y b' =>
      have h' : a'.length = b'.length := by simpa using h
      rw [List.zipWith_cons_cons, List.zipWith_cons_cons, ih b' h', sub_sub_cancel]

/-- Two sequences with an all-zero pointwise difference are equal. -/
lemma eq_of_zipWith_sub_eq_replicate {F : Type*} [Field F] :
    ∀ (a b : List F), a.length = b.length →
      List.zipWith (· - ·) a b = List.replicate a.length 0 → a = b := by
  intro a
  induction a with
  | nil =>
    intro b h _
    rw [List.length_nil] at h
    rw [(List.length_eq_zero).1 h.symm]
  | cons x a' ih =>
    intro b h hz
    cases b with
    | nil => simp at h
    | cons y b' =>
      have h' : a'.length = b'.length := by simpa using h
      rw [List.zipWith_cons_cons, List.length_cons, List.replicate_succ] at hz
      have hx : x - y = 0 := (List.cons_eq_cons.1 hz).1
      have hrest := (List.cons_eq_cons.1 hz).2
      rw [sub_eq_zero.1 hx, ih b' h' hrest]

/-- Appending a common suffix does not change the Hamming distance of
equally long sequences. -/
lemma diffCount_append_right {γ : Type*} [DecidableEq γ] (u : List γ) :
    ∀ (a b : List γ), a.length = b.length →
      diffCount (a ++ u) (b ++ u) = diffCount a b := by
  intro a
  induction a with
  | nil =>
    intro b h
    rw [List.length_nil] at h
    rw [(List.length_eq_zero).1 h.symm]
    simpa [diffCount] using diffCount_self u
  | cons x a' ih =>
    intro b h
    cases b with
    | nil => simp at h
    | cons y b' =>
      have h' : a'.length = b'.length := by simpa using h
      rw [List.cons_append, List.cons_append, diffCount_cons, diffCount_cons, ih b' h']

/-- Membership in `nzElems` is being a nonzero field element. -/
lemma mem_nzElems {F : Type*} [Field F] [DecidableEq F] [FinEnum F] (a : F) :
    a ∈ nzElems F ↔ a ≠ 0 := by
  simp [nzElems]

/-- The list `nzElems` names each nonzero element once. -/
lemma nzElems_nodup {F : Type*} [Field F] [DecidableEq F] [FinEnum F] :
    (nzElems F).Nodup :=
  (FinEnum.nodup_toList).filter _

/-- The enumerated error patterns are exactly the sequences of the right
length and of weight at most `t`. -/
lemma mem_errorPatterns {F : Type*} [Field F] [DecidableEq F] [FinEnum F] :
    ∀ (n t : ℕ) (e : List F), e ∈ errorPatterns F n t ↔ e.length = n ∧ weight e ≤ t := by
  intro n
  induction n with
  | zero =>
    intro t e
    rw [errorPatterns]
    constructor
    · intro h
      rw [List.mem_singleton] at h
      subst h
      simp [weight]
    · rintro ⟨hl, _⟩
      rw [List.length_eq_zero] at hl
      subst hl
      simp
  | succ n ih =>
    intro t e
    rw [errorPatterns]
    constructor
    · intro h
      rcases List.mem_append.1 h with h | h
      · obtain ⟨e', he', rfl⟩ := List.mem_map.1 h
        obtain ⟨hl, hw⟩ := (ih t e').1 he'
        refine ⟨by simp [hl], ?_⟩
        rw [weight_cons]
        simp only [ne_eq, not_true_eq_false, if_false]
        omega
      · by_cases ht : t = 0
        · rw [if_pos ht] at h
          simp at h
        · rw [if_neg ht] at h
          obtain ⟨a, ha, h⟩ := List.mem_flatMap.1 h
          obtain ⟨e', he', rfl⟩ := List.mem_map.1 h
          obtain ⟨hl, hw⟩ := (ih (t - 1) e').1 he'
          have hanz : a ≠ 0 := (mem_nzElems a).1 ha
          refine ⟨by simp [hl], ?_⟩
          rw [weight_cons, if_pos hanz]
          omega
    · rintro ⟨hl, hw⟩
      cases e with
      | nil => simp at hl
      | cons a e' =>
        have hl' : e'.length = n := by simpa using hl
        by_cases ha : a = 0
        · subst ha
          apply List.mem_append.2
          left
          apply List.mem_map.2
          refine ⟨e', (ih t e').2 ⟨hl', ?_⟩, rfl⟩
          rw [weight_cons] at hw
          simp only [ne_eq, not_true_eq_false, if_false] at hw
          omega
        · have hwc : weight e' + 1 ≤ t := by
            rw [weight_cons, if_pos ha] at hw
            omega
          have ht : t ≠ 0 := by omega
          apply List.mem_append.2
          right
          rw [if_neg ht]
          apply List.mem_flatMap.2
          refine ⟨a, (mem_nzElems a).2 ha, ?_⟩
          apply List.mem_map.2
          refine ⟨e', (ih (t - 1) e').2 ⟨hl', by omega⟩, rfl⟩

/-- The enumeration of error patterns has no duplicates. -/
lemma errorPatterns_nodup {F : Type*} [Field F] [DecidableEq F] [FinEnum F] :
    ∀ (n t : ℕ), (errorPatterns F n t).Nodup := by
  intro n
  induction n with
  | zero => intro t; rw [errorPatterns]; exact List.nodup_singleton _
  | succ n ih =>
    intro t
    rw [errorPatterns]
    have hconsinj : ∀ (a : F), Function.Injective (fun e : List F => a :: e) := by
      intro a e1 e2 h
      exact (List.cons_eq_cons.1 h).2
    apply List.Nodup.append
    · exact (ih t).map (hconsinj 0)
    · by_cases ht : t = 0
      · rw [if_pos ht]; exact List.nodup_nil
      · rw [if_neg ht]
        apply List.nodup_flatMap.2
        constructor
        · intro a _
          exact (ih (t - 1)).map (hconsinj a)
        · apply List.Pairwise.imp ?_ nzElems_nodup
          intro a b hab
          intro l hl1 hl2
          obtain ⟨e1, _, rfl⟩ := List.mem_map.1 hl1
          obtain ⟨e2, _, he⟩ := List.mem_map.1 hl2
          exact hab ((List.cons_eq_cons.1 he.symm).1)
    · intro l hl1 hl2
      obtain ⟨e1, _, rfl⟩ := List.mem_map.1 hl1
      by_cases ht : t = 0
      · rw [if_pos ht] at hl2
        simp at hl2
      · rw [if_neg ht] at hl2
        obtain ⟨a, ha, hl⟩ := List.mem_flatMap.1 hl2
        obtain ⟨e2, _, he⟩ := List.mem_map.1 hl
        exact (mem_nzElems a).1 ha (List.cons_eq_cons.1 he).1

/-- A duplicate-free list whose members all equal a member `a` is `[a]`. -/
lemma nodup_all_eq_singleton {γ : Type*} :
    ∀ (l : List γ) (a : γ), l.Nodup → a ∈ l → (∀ b ∈ l, b = a) → l = [a] := by
  intro l a hnd ha hall
  cases l with
  | nil => simp at ha
  | cons x l' =>
    have hx : x = a := hall x (List.mem_cons_self x l')
    subst hx
    cases l' with
    | nil => rfl
    | cons y l'' =>
      exfalso
      have hy : y = x := hall y (by simp)
      subst hy
      have := (List.nodup_cons.1 hnd).1
      simp at this

/-! ## The support lemma: a short word vanishing at enough geometric points
is zero (the minimum-distance argument for the Reed-Solomon code) -/

/-- Evaluation `evalPoly` as a sum over coefficient positions (descending powers). -/
lemma evalPoly_eq_sum_getD {F : Type*} [Field F] (x : F) : ∀ (l : List F),
    evalPoly l x = ∑ i in Finset.range l.length, l.getD i 0 * x ^ (l.length - 1 - i) := by
  intro l
  induction l with
  | nil => simp [evalPoly]
  | cons a tl ih =>
    have hs : (∑ i in Finset.range tl.length, (a :: tl).getD (i + 1) 0 *
          x ^ (tl.length + 1 - 1 - (i + 1)))
        = ∑ i in Finset.range tl.length, tl.getD i 0 * x ^ (tl.length - 1 - i) := by
      apply Finset.sum_congr rfl
      intro i _
      rw [List.getD_cons_succ, show tl.length + 1 - 1 - (i + 1) = tl.length - 1 - i by omega]
    rw [evalPoly_cons, ih, List.length_cons, Finset.sum_range_succ', hs, List.getD_cons_zero,
      show tl.length + 1 - 1 - 0 = tl.length by omega]
    ring

/-- Evaluation `evalPoly` as a sum over powers (ascending): coefficient `j` of `x ^ j`
sits at list position `length - 1 - j`. -/
lemma evalPoly_eq_sum_low {F : Type*} [Field F] (x : F) (l : List F) :
    evalPoly l x = ∑ j in Finset.range l.length, l.getD (l.length - 1 - j) 0 * x ^ j := by
  rw [evalPoly_eq_sum_getD,
    ← Finset.sum_range_reflect (fun j => l.getD (l.length - 1 - j) 0 * x ^ j) l.length]
  apply Finset.sum_congr rfl
  intro i hi
  rw [Finset.mem_range] at hi
  rw [show l.length - 1 - (l.length - 1 - i) = i by omega]

/-- Counting `countP` as the cardinality of the set of satisfying positions. -/
lemma countP_eq_card {γ : Type*} (p : γ → Bool) :
    ∀ (l : List γ), l.countP p = (Finset.univ.filter fun i : Fin l.length => p (l.get i)).card := by
  intro l
  induction l with
  | nil => simp
  | cons a tl ih =>
    rw [List.countP_cons, ih, Finset.card_filter, Finset.card_filter]
    simp only [List.length_cons]
    rw [Fin.sum_univ_succ]
    have hss : (∑ i : Fin tl.length, ((if p ((a :: tl).get i.succ) = true then 1 else 0) : ℕ))
        = ∑ i : Fin tl.length, ((if p (tl.get i) = true then 1 else 0) : ℕ) := by
      apply Finset.sum_congr rfl
      intro i _
      rw [List.get_cons_succ']
    rw [hss, List.get_cons_zero]
    omega

/-- Core support lemma: a word whose weight is at most `c` and which
evaluates to zero at the `c` distinct points `α ^ 0, …, α ^ (c-1)` is the
zero word.  (This is the classical Vandermonde argument giving the
Reed-Solomon code minimum distance `c + 1`.) -/
lemma eval_support_zero {F : Type*} [Field F] [DecidableEq F] (α : F) (c : ℕ) (l : List F)
    (hinj : ∀ i, i < l.length → ∀ j, j < l.length → α ^ i = α ^ j → i = j)
    (hw : weight l ≤ c)
    (hz : ∀ i, i < c → evalPoly l (α ^ i) = 0) :
    l = List.replicate l.length 0 := by
  rcases Nat.eq_zero_or_pos l.length with hn | hn
  · have : l = [] := List.length_eq_zero.1 hn
    subst this
    rfl
  have hsum : ∀ x : F,
      evalPoly l x = ∑ j : Fin l.length, l.getD (l.length - 1 - (j : ℕ)) 0 * x ^ (j : ℕ) := by
    intro x
    rw [evalPoly_eq_sum_low,
      ← Fin.sum_univ_eq_sum_range (fun j => l.getD (l.length - 1 - j) 0 * x ^ j) l.length]
  set S : Finset (Fin l.length) :=
    Finset.univ.filter (fun j : Fin l.length => l.getD (l.length - 1 - (j : ℕ)) 0 ≠ 0) with hS
  have hScard : S.card ≤ c := by
    have hwc : weight l
        = (Finset.univ.filter fun i : Fin l.length => (decide (l.get i ≠ 0)) = true).card := by
      rw [weight, countP_eq_card]
    have hcards : S.card
        = (Finset.univ.filter fun i : Fin l.length => (decide (l.get i ≠ 0)) = true).card := by
      apply Finset.card_nbij'
          (fun j : Fin l.length => (⟨l.length - 1 - (j : ℕ), by omega⟩ : Fin l.length))
          (fun j : Fin l.length => (⟨l.length - 1 - (j : ℕ), by omega⟩ : Fin l.length))
      · intro a ha
        rw [hS, Finset.mem_filter] at ha
        rw [Finset.mem_filter]
        refine ⟨Finset.mem_univ _, ?_⟩
        rw [decide_eq_true_iff]
        have hget : l.get (⟨l.length - 1 - (a : ℕ), by omega⟩ : Fin l.length)
            = l.getD (l.length - 1 - (a : ℕ)) 0 := by
          rw [List.getD_eq_getElem l 0 (by omega)]
          rfl
        rw [hget]
        exact ha.2
      · intro a ha
        rw [Finset.mem_filter, decide_eq_true_iff] at ha
        rw [hS, Finset.mem_filter]
        refine ⟨Finset.mem_univ _, ?_⟩
        show l.getD (l.length - 1 - (l.length - 1 - (a : ℕ))) 0 ≠ 0
        rw [show l.length - 1 - (l.length - 1 - (a : ℕ)) = (a : ℕ) by
          have := a.isLt; omega]
        have hget : l.getD (a : ℕ) 0 = l.get a := by
          rw [List.getD_eq_getElem l 0 a.isLt]
          rfl
        rw [hget]
        exact ha.2
      · intro a _
        apply Fin.ext
        show l.length - 1 - (l.length - 1 - (a : ℕ)) = (a : ℕ)
        have := a.isLt
        omega
      · intro a _
        apply Fin.ext
        show l.length - 1 - (l.length - 1 - (a : ℕ)) = (a : ℕ)
        have := a.isLt
        omega
    rw [hcards] at *
    rw [hwc] at hw
    exact hw
  set s := S.card with hscard
  set e := S.orderIsoOfFin rfl with he
  set u : Fin s → F := fun k => α ^ (((e k : {x // x ∈ S}) : Fin l.length) : ℕ) with hu
  have huinj : Function.Injective u := by
    intro k1 k2 hk
    have h1 : (((e k1 : {x // x ∈ S}) : Fin l.length) : ℕ)
        = (((e k2 : {x // x ∈ S}) : Fin l.length) : ℕ) :=
      hinj _ (((e k1 : {x // x ∈ S}) : Fin l.length)).isLt _
        (((e k2 : {x // x ∈ S}) : Fin l.length)).isLt hk
    have h2 : (e k1 : {x // x ∈ S}) = (e k2 : {x // x ∈ S}) :=
      Subtype.ext (Fin.ext h1)
    exact e.injective h2
  have hdet : ((Matrix.vandermonde u).transpose).det ≠ 0 := by
    rw [Matrix.det_transpose, Matrix.det_vandermonde]
    rw [Finset.prod_ne_zero_iff]
    intro i _
    rw [Finset.prod_ne_zero_iff]
    intro j hj
    rw [Finset.mem_Ioi] at hj
    rw [sub_ne_zero]
    intro hinjc
    exact absurd (huinj hinjc) (ne_of_gt hj)
  set w : Fin s → F := fun k => l.getD (l.length - 1 -
    ((((e k : {x // x ∈ S}) : Fin l.length)) : ℕ)) 0 with hwdef
  have hBw : ((Matrix.vandermonde u).transpose).mulVec w = 0 := by
    funext i
    have hic : (i : ℕ) < c := lt_of_lt_of_le i.isLt hScard
    have hzero : evalPoly l (α ^ (i : ℕ)) = 0 := hz _ hic
    rw [hsum] at hzero
    simp only [Matrix.mulVec, Matrix.dotProduct, Matrix.transpose_apply, Matrix.vandermonde]
    simp only [Matrix.of_apply]
    set g : Fin l.length → F :=
      fun j => l.getD (l.length - 1 - (j : ℕ)) 0 * (α ^ (i : ℕ)) ^ (j : ℕ) with hg
    have hstep : ∀ k : Fin s, u k ^ (i : ℕ) * w k
        = g ((e k : {x // x ∈ S}) : Fin l.length) := by
      intro k
      rw [hg, hu, hwdef]
      simp only []
      rw [← pow_mul, ← pow_mul, Nat.mul_comm]
      ring
    show (∑ k : Fin s, u k ^ (i : ℕ) * w k) = 0
    calc (∑ k : Fin s, u k ^ (i : ℕ) * w k)
        = ∑ k : Fin s, g ((e k : {x // x ∈ S}) : Fin l.length) :=
          Finset.sum_congr rfl fun k _ => hstep k
      _ = ∑ x : {x // x ∈ S}, g (x : Fin l.length) :=
          Equiv.sum_comp e.toEquiv (fun x : {x // x ∈ S} => g (x : Fin l.length))
      _ = ∑ j in S, g j := Finset.sum_coe_sort S g
      _ = ∑ j : Fin l.length, g j := by
          apply Finset.sum_subset (Finset.subset_univ S)
          intro x _ hx
          rw [hS, Finset.mem_filter] at hx
          push_neg at hx
          have hx0 : l.getD (l.length - 1 - (x : ℕ)) 0 = 0 := hx (Finset.mem_univ x)
          rw [hg]
          simp only []
          rw [hx0, zero_mul]
      _ = 0 := hzero
  have hw0 : w = 0 := Matrix.eq_zero_of_mulVec_eq_zero hdet hBw
  have hgetD : ∀ i : ℕ, i < l.length → l.getD i 0 = 0 := by
    intro i hi
    by_contra hne
    have hjS : (⟨l.length - 1 - i, by omega⟩ : Fin l.length) ∈ S := by
      rw [hS, Finset.mem_filter]
      refine ⟨Finset.mem_univ _, ?_⟩
      rw [show ((⟨l.length - 1 - i, by omega⟩ : Fin l.length) : ℕ) = l.length - 1 - i from rfl,
        show l.length - 1 - (l.length - 1 - i) = i by omega]
      exact hne
    set x : {x // x ∈ S} := ⟨⟨l.length - 1 - i, by omega⟩, hjS⟩ with hx
    have : w (e.symm x) = 0 := by rw [hw0]; rfl
    rw [hwdef] at this
    simp only [OrderIso.apply_symm_apply] at this
    rw [show l.length - 1 - (l.length - 1 - i) = i by omega] at this
    exact hne this
  rw [List.eq_replicate]
  refine ⟨rfl, ?_⟩
  intro b hb
  obtain ⟨i, hi, hbi⟩ := List.mem_iff_getElem.1 hb
  rw [← hbi, ← List.getD_eq_getElem l 0 hi]
  exact hgetD i hi

/-! ## Bounded-distance decoding correctness and claim C1 -/

/-- Modelled-decoder correctness: a received word of codeword length within
Hamming distance `floor(c/2)` of the codeword `rsEncode α d c` decodes to the
data `d` — the spec's error-correction guarantee (§4.3). -/
lemma rsDecode_correct {F : Type*} [Field F] [DecidableEq F] [FinEnum F]
    (α : F) (d : List F) (c : ℕ) (w : List F)
    (hinj : ∀ i, i < d.length + c → ∀ j, j < d.length + c → α ^ i = α ^ j → i = j)
    (hwlen : w.length = d.length + c)
    (hdist : diffCount w (rsEncode α d c) ≤ c / 2) :
    rsDecode α w c = some d := by
  have hcwlen : (rsEncode α d c).length = d.length + c := rsEncode_length α d c
  have hlen2 : w.length = (rsEncode α d c).length := by rw [hcwlen, hwlen]
  set e0 : List F := List.zipWith (· - ·) w (rsEncode α d c) with he0
  have he0len : e0.length = w.length := by
    rw [he0, List.length_zipWith, hlen2, min_self]
  have hwt : weight e0 ≤ c / 2 := by
    rw [he0, weight_zipWith_sub_eq_diffCount]
    exact hdist
  have hsubst : List.zipWith (· - ·) w e0 = rsEncode α d c := by
    rw [he0]
    exact zipWith_sub_sub_cancel w _ hlen2
  have hsynzero : ∀ i, i < c → evalPoly (rsEncode α d c) (α ^ i) = 0 :=
    fun i hi => rsEncode_syndromes α d c i hi
  have htake : (rsEncode α d c).take ((rsEncode α d c).length - c) = d := by
    rw [hcwlen, show d.length + c - c = d.length by omega]
    conv_lhs => rw [rsEncode]
    exact List.take_left _ _
  by_cases hsynw : ((rsSyndromes α w c).all fun s => decide (s = 0)) = true
  · have hzw : ∀ i, i < c → evalPoly w (α ^ i) = 0 := (rsSyndromes_all_zero_iff α w c).1 hsynw
    have he0zero : ∀ i, i < c → evalPoly e0 (α ^ i) = 0 := by
      intro i hi
      rw [he0, evalPoly_zipWith_sub _ _ _ hlen2, hzw i hi, hsynzero i hi, sub_zero]
    have he0rep := eval_support_zero α c e0
      (by rw [he0len, hwlen]; exact hinj) (hwt.trans (Nat.div_le_self c 2)) he0zero
    have hweq : w = rsEncode α d c := by
      apply eq_of_zipWith_sub_eq_replicate w _ hlen2
      rw [← he0, he0rep, he0len]
    rw [rsDecode, if_pos hsynw, hweq, htake]
  · rw [rsDecode, if_neg hsynw]
    have he0mem : e0 ∈ errorPatterns F w.length (c / 2) :=
      (mem_errorPatterns w.length (c / 2) e0).2 ⟨he0len, hwt⟩
    have he0pred : ((rsSyndromes α (List.zipWith (· - ·) w e0) c).all
        fun s => decide (s = 0)) = true := by
      apply (rsSyndromes_all_zero_iff α _ c).2
      rw [hsubst]
      exact hsynzero
    have hall : ∀ e ∈ (errorPatterns F w.length (c / 2)).filter
        (fun e => (rsSyndromes α (List.zipWith (· - ·) w e) c).all fun s => decide (s = 0)),
        e = e0 := by
      intro e he
      rw [List.mem_filter] at he
      obtain ⟨hmem, hpred⟩ := he
      obtain ⟨helen, hewt⟩ := (mem_errorPatterns w.length (c / 2) e).1 hmem
      have hezero : ∀ i, i < c → evalPoly (List.zipWith (· - ·) w e) (α ^ i) = 0 :=
        (rsSyndromes_all_zero_iff α _ c).1 hpred
      have hdlen : (List.zipWith (· - ·) e0 e).length = w.length := by
        rw [List.length_zipWith, he0len, helen, min_self]
      have hdzero : ∀ i, i < c → evalPoly (List.zipWith (· - ·) e0 e) (α ^ i) = 0 := by
        intro i hi
        rw [evalPoly_zipWith_sub _ _ _ (by rw [he0len, helen])]
        have h1 : evalPoly w (α ^ i) - evalPoly e0 (α ^ i) = 0 := by
          rw [← evalPoly_zipWith_sub _ w e0 (by rw [he0len]), hsubst]
          exact hsynzero i hi
        have h2 : evalPoly w (α ^ i) - evalPoly e (α ^ i) = 0 := by
          rw [← evalPoly_zipWith_sub _ w e (by rw [helen])]
          exact hezero i hi
        linear_combination h2 - h1
      have hdwt : weight (List.zipWith (· - ·) e0 e) ≤ c := by
        have hs1 := weight_zipWith_sub_le e0 e
        have hs2 : weight e0 + weight e ≤ c / 2 + c / 2 := Nat.add_le_add hwt hewt
        omega
      have hdrep := eval_support_zero α c (List.zipWith (· - ·) e0 e)
        (by rw [hdlen, hwlen]; exact hinj) hdwt hdzero
      have heq : e0 = e := by
        apply eq_of_zipWith_sub_eq_replicate e0 e (by rw [he0len, helen])
        rw [hdrep, hdlen, he0len]
      exact heq.symm
    have hnodup : ((errorPatterns F w.length (c / 2)).filter
        (fun e => (rsSyndromes α (List.zipWith (· - ·) w e) c).all
          fun s => decide (s = 0))).Nodup :=
      (errorPatterns_nodup w.length (c / 2)).filter _
    have hmemf : e0 ∈ (errorPatterns F w.length (c / 2)).filter
        (fun e => (rsSyndromes α (List.zipWith (· - ·) w e) c).all fun s => decide (s = 0)) :=
      List.mem_filter.2 ⟨he0mem, he0pred⟩
    have hsols := nodup_all_eq_singleton _ e0 hnodup hmemf hall
    rw [hsols]
    show some ((List.zipWith (· - ·) w e0).take (w.length - c)) = some d
    rw [hsubst, hlen2, htake]

/-- Claim C1: for every `Part` built with `num_checks = c` from a master
file, every candidate whose quantized symbol sequence has the master's
length and differs from the master's quantized data in at most
`floor(c/2)` positions is accepted by `check_candidate`, and the decoder
recovers the master's quantized data exactly. -/
theorem check_candidate_corrects_errors {F : Type*} [Field F] [DecidableEq F] [FinEnum F]
    (α : F) (ι : ℤ → F) (c : ℕ) (masterFile candFile : List (List ℚ))
    (hinj : ∀ i, i < (quantize masterFile).length + c →
      ∀ j, j < (quantize masterFile).length + c → α ^ i = α ^ j → i = j)
    (hlen : (quantize candFile).length = (quantize masterFile).length)
    (hdiff : diffCount (quantize candFile) (quantize masterFile) ≤ c / 2) :
    checkCandidate α ι (mkPart α ι c masterFile) candFile = true ∧
      rsDecode α (mkInstance ι c candFile
        (mkPart α ι c masterFile).master.check_digits).data c
        = some ((quantize masterFile).map ι) := by
  have hcand : (mkInstance ι c candFile (mkPart α ι c masterFile).master.check_digits).data
      = (quantize candFile).map ι ++
        (rsEncode α ((quantize masterFile).map ι) c).drop
          ((quantize masterFile).map ι).length := by
    rw [mkInstance, mkPart_check_digits]
  have hdclen : ((quantize candFile).map ι).length = ((quantize masterFile).map ι).length := by
    rw [List.length_map, List.length_map, hlen]
  have hwlen : ((quantize candFile).map ι ++
      (rsEncode α ((quantize masterFile).map ι) c).drop
        ((quantize masterFile).map ι).length).length
      = ((quantize masterFile).map ι).length + c := by
    rw [List.length_append, List.length_drop, rsEncode_length, hdclen]
    omega
  have hinjm : ∀ i, i < ((quantize masterFile).map ι).length + c →
      ∀ j, j < ((quantize masterFile).map ι).length + c → α ^ i = α ^ j → i = j := by
    rw [List.length_map]
    exact hinj
  have hdist : diffCount ((quantize candFile).map ι ++
      (rsEncode α ((quantize masterFile).map ι) c).drop
        ((quantize masterFile).map ι).length)
      (rsEncode α ((quantize masterFile).map ι) c) ≤ c / 2 := by
    nth_rewrite 2 [← encode_split α ((quantize masterFile).map ι) c]
    rw [diffCount_append_right _ _ _ hdclen]
    exact le_trans (diffCount_map_le ι (quantize candFile) (quantize masterFile)) hdiff
  have hdec := rsDecode_correct α ((quantize masterFile).map ι) c
    ((quantize candFile).map ι ++
      (rsEncode α ((quantize masterFile).map ι) c).drop
        ((quantize masterFile).map ι).length) hinjm hwlen hdist
  have hword : rsDecode α (mkInstance ι c candFile
      (mkPart α ι c masterFile).master.check_digits).data c
      = some ((quantize masterFile).map ι) := by
    rw [hcand]
    exact hdec
  refine ⟨?_, hword⟩
  rw [checkCandidate]
  have hnum : (mkPart α ι c masterFile).num_checks = c := rfl
  simp only [hnum]
  rw [hword]

/-- Witness for C1: master `[[1]]` quantizes to `[1,0,0,0,0]`; with
`checkLength = 2` (capacity one symbol error) the candidate `[[2]]`, whose
quantization `[2,0,0,0,0]` differs in exactly one position, authenticates as
`true` and decodes back to the master data. -/
theorem check_candidate_corrects_errors_witness :
    checkCandidate (3 : ZMod 17) Int.cast
        (mkPart (3 : ZMod 17) Int.cast 2 [[(1 : ℚ)]]) [[(2 : ℚ)]] = true ∧
      rsDecode (3 : ZMod 17) (mkInstance Int.cast 2 [[(2 : ℚ)]]
          (mkPart (3 : ZMod 17) Int.cast 2 [[(1 : ℚ)]]).master.check_digits).data 2
        = some ((quantize [[(1 : ℚ)]]).map Int.cast) :=
  check_candidate_corrects_errors (3 : ZMod 17) Int.cast 2 [[(1 : ℚ)]] [[(2 : ℚ)]]
    (by decide) (by decide) (by decide)

end RSPart
